import Mathlib

/-!
Verification of the hsd-tools task/step progress engine: the task/step
registry (lib/cli.js), the bounded-concurrency semaphore (lib/semaphore.js),
the TTL-with-jitter cache (lib/cache.js), the fetch-with-cache helper
(lib/utils/fetch.js) and the live terminal renderer (lib/ui.js).

Each JavaScript class is embedded shallowly: objects become structures,
mutation becomes explicit state passing, `Map` becomes an insertion-ordered
association list, runtime exceptions become `Option`/`Except` results, and
ambient effects (current time, `Math.random` jitter, the file system, the
HTTP transport) become explicit parameters.
-/

namespace HsTools

/-! ## Insertion-ordered string maps (JS `Map`) -/

/-- `Map.get(k)`. -/
def alGet {α : Type} : List (String × α) → String → Option α
  | [], _ => none
  | (k', v) :: rest, k => if k' = k then some v else alGet rest k

/-- `Map.set(k, v)`: updates in place when the key exists, appends otherwise. -/
def alSet {α : Type} : List (String × α) → String → α → List (String × α)
  | [], k, v => [(k, v)]
  | (k', v') :: rest, k, v =>
    if k' = k then (k, v) :: rest else (k', v') :: alSet rest k v

/-- `Map.delete(k)`: removes the entry with the key, if any. -/
def alRemove {α : Type} : List (String × α) → String → List (String × α)
  | [], _ => []
  | (k', v') :: rest, k =>
    if k' = k then rest else (k', v') :: alRemove rest k

/-- Keys of the association list are distinct — the representation invariant
of a JS `Map` as a list. -/
def alWF {α : Type} (m : List (String × α)) : Prop :=
  (m.map Prod.fst).Nodup

/-! ## Status enum (lib/common.js: STOPPED, RUNNING, FAILED, SKIPPED, DONE) -/

inductive Status
  | stopped
  | running
  | failed
  | skipped
  | done
deriving DecidableEq, Repr

/-! ## Task/Step registry (lib/cli.js) -/

/-- `Step` from lib/cli.js: `{name, status, message}`. -/
structure Step where
  name : String
  status : Status
  message : String
deriving DecidableEq, Repr

/-- `Task` from lib/cli.js: name, message, ordered step map and the five
status counters, plus the task's own status. Counters are integers, as in
JavaScript. -/
structure Task where
  name : String
  message : String
  steps : List (String × Step)
  stopped : Int
  running : Int
  failed : Int
  skipped : Int
  done : Int
  status : Status
deriving DecidableEq, Repr

/-- `new Task(name, message)`: `message || ''`, empty steps, zero counters,
status `STOPPED`. -/
def Task.init (name : String) (message : Option String) : Task :=
  { name := name
    message := message.getD ""
    steps := []
    stopped := 0
    running := 0
    failed := 0
    skipped := 0
    done := 0
    status := .stopped }

/-- `Task.addStep(name, message)`: if the step exists, update its message
when one is given; otherwise insert a new `STOPPED` step and bump the
`stopped` counter. -/
def Task.addStep (t : Task) (name : String) (message : Option String) : Task :=
  match alGet t.steps name with
  | some step =>
    match message with
    | some m => { t with steps := alSet t.steps name { step with message := m } }
    | none => t
  | none =>
    let step : Step := { name := name, status := .stopped, message := message.getD "" }
    { t with stopped := t.stopped + 1, steps := alSet t.steps name step }

/-- `Task.changeStat(status, n)`: add `n` to the counter of the bucket. -/
def Task.changeStat (t : Task) (status : Status) (n : Int) : Task :=
  match status with
  | .stopped => { t with stopped := t.stopped + n }
  | .running => { t with running := t.running + n }
  | .failed => { t with failed := t.failed + n }
  | .skipped => { t with skipped := t.skipped + n }
  | .done => { t with done := t.done + n }

/-- `Task.setStepStatus(name, status, message)`: create the step if absent;
`STOPPED` with a message only updates the message; otherwise transition the
status, moving one count from the old bucket to the new one. -/
def Task.setStepStatus (t : Task) (name : String) (status : Status)
    (message : Option String) : Task :=
  let t1 := if (alGet t.steps name).isSome then t else t.addStep name message
  match alGet t1.steps name with
  | none => t1
  | some step =>
    if status = .stopped ∧ message.isSome then
      { t1 with steps := alSet t1.steps name { step with message := message.getD step.message } }
    else
      let step' := { step with status := status, message := message.getD step.message }
      (({ t1 with steps := alSet t1.steps name step' }).changeStat step.status (-1)).changeStat status 1

/-- Sum of the five status counters of a task. -/
def Task.statSum (t : Task) : Int :=
  t.stopped + t.running + t.failed + t.skipped + t.done

/-- The registry invariant for one task:
`stopped + running + failed + skipped + done == steps.size`. -/
def Task.sizeInv (t : Task) : Prop :=
  t.statSum = t.steps.length

/-- The event vocabulary of CLI.run (lib/cli.js): `task`, `task <Status>`,
`step`, `step <Status>`. -/
inductive Event
  | task (name : String) (message : Option String)
  | taskStatus (status : Status) (name : String) (message : Option String)
  | step (tname name : String) (message : Option String)
  | stepStatus (status : Status) (tname name : String) (message : Option String)
deriving DecidableEq, Repr

/-- The task registry of CLI: `Map<String, Task>`. -/
abbrev Registry := List (String × Task)

/-- One event handler dispatch of CLI.run. The `step` and `step <Status>`
handlers call `this.tasks.get(tname)` without creating the task, so when the
task is absent they dereference `undefined` and throw — modelled as `none`. -/
def applyEvent (r : Registry) : Event → Option Registry
  | .task name message =>
    match alGet r name with
    | some t =>
      match message with
      | some m => some (alSet r name { t with message := m })
      | none => some r
    | none => some (alSet r name (Task.init name message))
  | .taskStatus status name message =>
    let r1 := if (alGet r name).isSome then r else alSet r name (Task.init name message)
    match alGet r1 name with
    | none => none
    | some t =>
      some (alSet r1 name { t with status := status, message := message.getD t.message })
  | .step tname name message =>
    match alGet r tname with
    | none => none
    | some t => some (alSet r tname (t.addStep name message))
  | .stepStatus status tname name message =>
    match alGet r tname with
    | none => none
    | some t => some (alSet r tname (t.setStepStatus name status message))

/-- Apply a sequence of events; a thrown handler aborts the run. -/
def applyEvents (r : Registry) : List Event → Option Registry
  | [] => some r
  | e :: es =>
    match applyEvent r e with
    | none => none
    | some r' => applyEvents r' es

/-- Every task of the registry satisfies the count invariant. -/
def RegInv (r : Registry) : Prop :=
  ∀ p ∈ r, Task.sizeInv p.2

/-! ## Semaphore (lib/semaphore.js, SimpleSemaphore)

Jobs are identified by numbers. The JS object's fields `jobs` (the FIFO
queue) and `active` (count of running jobs, modelled as the list of running
job ids) become state. `do(job)` pushes and calls `execute()`; a settled
job's `.then`/`.catch` callback decrements `active` and calls `execute()`
again when the queue is non-empty. History fields `started`, `settled` and
`submitted` record the observable order of events.
-/

structure SemState where
  max : Nat
  queue : List Nat
  running : List Nat
  started : List Nat
  settled : List Nat
  submitted : List Nat
deriving DecidableEq, Repr

/-- `execute()`: return when `active === max`; otherwise increment `active`
and shift the next job off the queue, starting it. Both call sites guarantee
a non-empty queue, so the `[]` branch is dead. -/
def semExecute (s : SemState) : SemState :=
  if s.running.length = s.max then s
  else
    match s.queue with
    | [] => s
    | j :: rest =>
      { s with queue := rest, running := s.running ++ [j], started := s.started ++ [j] }

/-- `do(job)`: push the job onto the queue, then `execute()`. -/
def semSubmit (s : SemState) (id : Nat) : SemState :=
  semExecute { s with queue := s.queue ++ [id], submitted := s.submitted ++ [id] }

/-- Settlement of a running job: both the `.then` and the `.catch` callback
settle the caller, decrement `active`, and call `execute()` when jobs are
queued. `ok` distinguishes resolution from rejection; the two branches of
the source perform identical bookkeeping, so `ok` does not influence the
state. -/
def semFinish (s : SemState) (id : Nat) (_ok : Bool) : SemState :=
  let s1 := { s with running := s.running.erase id, settled := s.settled ++ [id] }
  if s1.queue ≠ [] then semExecute s1 else s1

/-- Events of the semaphore's environment: submitting a fresh job, or one of
the currently running jobs settling (resolving when `ok`, rejecting
otherwise). -/
inductive SemEvent
  | submit (id : Nat)
  | finish (id : Nat) (ok : Bool)
deriving DecidableEq, Repr

/-- One environment step; `none` when the event is not valid in the state
(settling a job that is not running, or reusing a job id). -/
def semStep (s : SemState) : SemEvent → Option SemState
  | .submit id => if id ∈ s.submitted then none else some (semSubmit s id)
  | .finish id ok => if id ∈ s.running then some (semFinish s id ok) else none

def semRun (s : SemState) : List SemEvent → Option SemState
  | [] => some s
  | e :: es =>
    match semStep s e with
    | none => none
    | some s' => semRun s' es

/-- `new SimpleSemaphore(max)` (the constructor asserts `max > 0`). -/
def semInit (max : Nat) : SemState :=
  { max := max, queue := [], running := [], started := [], settled := [], submitted := [] }

/-- The reachable-state invariant of the semaphore: the concurrency bound,
jobs wait only while the pool is full, jobs start in submission order
(`started ++ queue = submitted`), and every started job is either running
or settled. -/
def SemInv (s : SemState) : Prop :=
  0 < s.max
  ∧ s.running.length ≤ s.max
  ∧ (s.queue ≠ [] → s.running.length = s.max)
  ∧ s.started ++ s.queue = s.submitted
  ∧ s.started.Perm (s.running ++ s.settled)

/-! ## Cache (lib/cache.js)

Times are epoch seconds. The jitter `Math.floor(diff * Math.random())` is an
explicit parameter `rand` (with `rand < diff` for a genuine random source,
since `Math.random() < 1`). The payload directory becomes an explicit
path-to-data association list `FSim`; paths are relative to `cacheDir`.
-/

/-- `CacheEntry` of lib/cache.js. -/
structure CacheEntry where
  name : String
  file : String
  createdAt : Nat
  timeoutAt : Nat
deriving DecidableEq, Repr

/-- `entry.path` (also `entry.id`): `` `${name}/${file}` ``. -/
def CacheEntry.path (e : CacheEntry) : String :=
  e.name ++ "/" ++ e.file

/-- `entry.hasExpired`: entries whose `timeoutAt` equals `createdAt` never
expire; otherwise the deadline is `timeoutAt` plus the random jitter. -/
def CacheEntry.hasExpired (e : CacheEntry) (rand now : Nat) : Bool :=
  if e.timeoutAt = e.createdAt then false
  else decide (e.timeoutAt + rand ≤ now)

/-- Mutable state of `Cache`: the `ignore` flag, the in-memory index
`cacheMap` keyed by `entry.id`, the dirty flag and the schema version. -/
structure CacheState where
  ignore : Bool
  cacheMap : List (String × CacheEntry)
  hasChanged : Bool
  version : Nat
deriving DecidableEq, Repr

/-- The simulated payload file store: path to raw data. -/
abbrev FSim := List (String × String)

/-- `Cache.cache(name, file, data, timeout = 2 * T_HOUR)`: no-op returning
`false` when caching is disabled; otherwise record the entry at
`createdAt = now`, `timeoutAt = now + timeout`, mark the index dirty, write
the payload file and return `true`. -/
def cacheOp (st : CacheState) (fsim : FSim) (name file data : String)
    (timeout now : Nat) : Bool × CacheState × FSim :=
  if st.ignore then (false, st, fsim)
  else
    let entry : CacheEntry :=
      { name := name, file := file, createdAt := now, timeoutAt := now + timeout }
    let st' := { st with cacheMap := alSet st.cacheMap entry.path entry, hasChanged := true }
    (true, st', alSet fsim entry.path data)

/-- `Cache.getCache(name, file)`: `null` when disabled or absent; purge the
entry when the payload file is missing; purge entry and payload when the
entry has expired; otherwise return the payload. -/
def getCache (st : CacheState) (fsim : FSim) (name file : String)
    (rand now : Nat) : Option String × CacheState × FSim :=
  if st.ignore then (none, st, fsim)
  else
    let id := name ++ "/" ++ file
    match alGet st.cacheMap id with
    | none => (none, st, fsim)
    | some entry =>
      match alGet fsim entry.path with
      | none =>
        (none, { st with hasChanged := true, cacheMap := alRemove st.cacheMap entry.path }, fsim)
      | some data =>
        if entry.hasExpired rand now then
          (none, { st with hasChanged := true, cacheMap := alRemove st.cacheMap entry.path },
            alRemove fsim entry.path)
        else (some data, st, fsim)

/-- Contents of the on-disk index file as seen by `readCacheInfo`: absent,
present but unparseable (where `fs.readJSON` throws), or parsed with a
version and entry list. -/
inductive IndexFile
  | missing
  | unreadable
  | valid (version : Nat) (entries : List (String × CacheEntry))
deriving DecidableEq, Repr

/-- `Cache.readCacheInfo()`: `false` when the file is absent or the version
mismatches; loads the entries on a version match. `fs.readJSON` raises on an
unreadable/unparseable file, modelled by `Except.error`. -/
def readCacheInfo (st : CacheState) (idx : IndexFile) : Except Unit (Bool × CacheState) :=
  match idx with
  | .missing => .ok (false, st)
  | .unreadable => .error ()
  | .valid v entries =>
    if v ≠ st.version then .ok (false, st)
    else
      .ok (true, { st with cacheMap := entries.foldl (fun m kv => alSet m kv.1 kv.2) st.cacheMap })

/-- `Cache.open()` just calls `readCacheInfo()`. -/
def cacheOpen (st : CacheState) (idx : IndexFile) : Except Unit CacheState :=
  match readCacheInfo st idx with
  | .error e => .error e
  | .ok (_, st') => .ok st'

/-- `NullCache.cache(name, file, data, timeout)`: does nothing and returns
`true`. -/
def nullCacheOp (_name _file _data : String) (_timeout : Nat) : Bool :=
  true

/-- `NullCache.getCache(name, file)`: always `null`. -/
def nullCacheGet (_name _file : String) : Option String :=
  none

/-! ## fetch / fetchCached (lib/utils/fetch.js)

The HTTP transport is a parameter: `none` when `brq` itself throws, or the
response's status code together with the result of `res.json()` (which may
itself fail to deserialize). Response values are a type parameter `α`.
-/

/-- The typed errors `fetch` can throw. -/
inductive FetchErr
  | transport
  | wrongStatus (code : Nat)
  | deserialize
deriving DecidableEq, Repr

/-- `fetch(opts)`: wrap a transport failure; 404 means "no data"; a non-2xx
status is a typed error; a 2xx body that fails to deserialize is a typed
error; otherwise the parsed JSON. -/
def fetchModel {α : Type} (transport : Option (Nat × Except Unit α)) :
    Except FetchErr (Option α) :=
  match transport with
  | none => .error .transport
  | some (code, body) =>
    if code = 404 then .ok none
    else if code < 200 ∨ 300 ≤ code then .error (.wrongStatus code)
    else
      match body with
      | .error _ => .error .deserialize
      | .ok v => .ok (some v)

/-- `opts.expire`: either a number or a function of the parsed response. -/
inductive ExpireSpec (α : Type)
  | num (n : Nat)
  | fn (f : α → Nat)

/-- `fetchCached(cache, opts)` with the cache interaction made explicit:
`cached` is what `cache.getCache` returned, and the second component of the
result is the `cache.cache` write performed (`none` when nothing was
written). On a hit, parse and return `(value, true)`. On a miss, any error
thrown by the fetch is swallowed into `(null, false)`; a 404 also yields
`(null, false)` without caching; on success the TTL is resolved from
`expire` and the serialized value is written through the cache. -/
def fetchCached {α : Type} (cached : Option String) (parse : String → α)
    (transport : Option (Nat × Except Unit α)) (expire : ExpireSpec α)
    (stringify : α → String) : (Option α × Bool) × Option (String × Nat) :=
  match cached with
  | some raw => ((some (parse raw), true), none)
  | none =>
    match fetchModel transport with
    | .error _ => ((none, false), none)
    | .ok none => ((none, false), none)
    | .ok (some json) =>
      let ttl :=
        match expire with
        | .num n => n
        | .fn f => f json
      ((some json, false), some (stringify json, ttl))

/-- JavaScript truthiness of a JSON string field that may be missing. -/
def jsTruthy (s : Option String) : Bool :=
  match s with
  | none => false
  | some str => decide (str ≠ "")

/-- The `expire` callback of `GithubAPI.getPRInfo` (lib/api/github.js):
`json => json.merged_at ? 0 : 24 * T_HOUR`. -/
def prExpire (mergedAt : Option String) : Nat :=
  if jsTruthy mergedAt then 0 else 24 * 3600

/-! ## Step elision (lib/ui.js, calculateSteps)

Arithmetic is over `Int`, matching JavaScript numbers on these integer
inputs; `Math.ceil(left / 2)` for the non-negative `left` arising here is
`(left + 1) / 2` rounded towards minus infinity. The three `assert` calls
become `none` results. The record fields keep the source's names and
order.
-/

structure StepsAlloc where
  showDone : Int
  hiddenDone : Bool
  showRunning : Int
  hiddenRunning : Bool
  showWaiting : Int
  hiddenWaiting : Bool
deriving DecidableEq, Repr

/-- `calculateSteps(done, running, waiting, maxSteps = 8)` of lib/ui.js. -/
def calculateSteps (done running waiting : Int) (maxSteps : Int := 8) :
    Option StepsAlloc :=
  if ¬ (done + running + waiting ≥ maxSteps) then none
  else
    let leftForRunning := min 2 done + min 2 waiting
    let showRunning := min running (maxSteps - leftForRunning)
    let hiddenRunning := decide (running > showRunning)
    let left1 := maxSteps - showRunning
    let leftWaiting := (left1 + 1) / 2
    let showWaiting := min leftWaiting waiting
    let hiddenWaiting := decide (waiting > showWaiting)
    let left2 := left1 - showWaiting
    let showDone := min left2 done
    let hiddenDone := decide (done > showDone)
    let left3 := left2 - showDone
    let redo :=
      if left3 ≠ 0 ∧ hiddenWaiting then
        let sw := min waiting (showWaiting + left3)
        (sw, decide (waiting > sw), left3 - (sw - showWaiting))
      else (showWaiting, hiddenWaiting, left3)
    if redo.2.2 ≠ 0 then none
    else if showDone + showRunning + redo.1 ≠ maxSteps then none
    else
      some
        { showDone := showDone, hiddenDone := hiddenDone
          showRunning := showRunning, hiddenRunning := hiddenRunning
          showWaiting := redo.1, hiddenWaiting := redo.2.1 }

/-! ## ANSI stripping (lib/ui.js, ansiRegex / stripAnsi)

`stripAnsi` replaces every match of the ansi-regex pattern by the empty
string. The pattern is embedded as an ordered backtracking matcher over
`List Char`: a matcher returns the candidate remainders after a match of a
prefix, in the regex engine's preference order (greedy quantifiers, left
alternative first), so the head candidate is the JavaScript match.
-/

/-- `[\u001B\u009B]` — every match of the pattern starts with one of these. -/
def isAnsiStarter (c : Char) : Bool :=
  c == '\x1B' || c == '\u009B'

/-- `[[\]()#;?]` -/
def isAnsiIntro (c : Char) : Bool :=
  ['[', ']', '(', ')', '#', ';', '?'].contains c

/-- `[-a-zA-Z\d\/#&.:=?%@~_]` -/
def isAnsiArg (c : Char) : Bool :=
  c.isAlphanum || ['-', '/', '#', '&', '.', ':', '=', '?', '%', '@', '~', '_'].contains c

/-- `[\dA-PR-TZcf-nq-uy=><~]` — the final byte of a CSI-style sequence. -/
def isAnsiFinal (c : Char) : Bool :=
  c.isDigit
    || (decide ('A' ≤ c) && decide (c ≤ 'P'))
    || (decide ('R' ≤ c) && decide (c ≤ 'T'))
    || c == 'Z'
    || (decide ('c' ≤ c) && decide (c ≤ 'n'))
    || (decide ('q' ≤ c) && decide (c ≤ 'u'))
    || c == 'y'
    || c == '='
    || c == '>'
    || c == '<'
    || c == '~'

/-- A matcher consumes a prefix and yields candidate remainders in
preference order. -/
def Matcher : Type := List Char → List (List Char)

/-- Match one character of a class. -/
def mOne (p : Char → Bool) : Matcher := fun s =>
  match s with
  | [] => []
  | c :: rest => if p c then [rest] else []

/-- Concatenation. -/
def mSeq (a b : Matcher) : Matcher := fun s =>
  (a s).flatMap b

/-- Ordered alternation (left preferred). -/
def mAlt (a b : Matcher) : Matcher := fun s =>
  a s ++ b s

/-- Greedy `?`. -/
def mOpt (a : Matcher) : Matcher := fun s =>
  a s ++ [s]

/-- Greedy `*` (equivalently `{0,fuel}`); every starred sub-pattern of the
ansi regex consumes at least one character, so fuel equal to the input
length is exact. -/
def mStar (a : Matcher) : Nat → Matcher
  | 0 => fun s => [s]
  | fuel + 1 => fun s => (a s).flatMap (mStar a fuel) ++ [s]

/-- Greedy `+`. -/
def mPlus (a : Matcher) (fuel : Nat) : Matcher :=
  mSeq a (mStar a fuel)

/-- The full ansiRegex pattern
`[\u001B\u009B][[\]()#;?]*(?:(?:(?:(?:;[-a-zA-Z\d\/#&.:=?%@~_]+)*|[a-zA-Z\d]+(?:;[-a-zA-Z\d\/#&.:=?%@~_]*)*)?\u0007)|(?:(?:\d{1,4}(?:;\d{0,4})*)?[\dA-PR-TZcf-nq-uy=><~]))`
applied at the start of the input. -/
def ansiMatch (s : List Char) : List (List Char) :=
  let fuel := s.length
  let semi := mOne (fun c => c == ';')
  let digit := mOne Char.isDigit
  let bellArgsA := mStar (mSeq semi (mPlus (mOne isAnsiArg) fuel)) fuel
  let bellArgsB :=
    mSeq (mPlus (mOne Char.isAlphanum) fuel)
      (mStar (mSeq semi (mStar (mOne isAnsiArg) fuel)) fuel)
  let bellBranch :=
    mSeq (mOpt (mAlt bellArgsA bellArgsB)) (mOne (fun c => c == '\x07'))
  let csiBranch :=
    mSeq
      (mOpt (mSeq (mSeq digit (mStar digit 3)) (mStar (mSeq semi (mStar digit 4)) fuel)))
      (mOne isAnsiFinal)
  mSeq (mOne isAnsiStarter)
    (mSeq (mStar (mOne isAnsiIntro) fuel) (mAlt bellBranch csiBranch)) s

/-- `String.replace(ansiRegex(), '')`: scan left to right, drop each match,
keep non-matching characters. Fuel decreases once per kept character or
match. -/
def stripAnsiGo : Nat → List Char → List Char
  | 0, s => s
  | _ + 1, [] => []
  | fuel + 1, c :: rest =>
    match ansiMatch (c :: rest) with
    | rem :: _ => stripAnsiGo fuel rem
    | [] => c :: stripAnsiGo fuel rest

/-- `stripAnsi(string)` of lib/ui.js. -/
def stripAnsi (s : List Char) : List Char :=
  stripAnsiGo s.length s

/-! ## Line diff and diff redraw (lib/ui.js, getDiff / UIRenderer.draw) -/

/-- The loop body of `getDiff`: walk the (ANSI-stripped) old line against
the new line, recording `(index, newChar)` for each mismatch, giving up as
soon as more than `maxDiffs` mismatches are seen. The old list is never
longer than the new one at the call site (stripping only removes
characters), so the second pattern cannot arise there. -/
def diffLoop (maxDiffs : Nat) :
    List Char → List Char → Nat → Nat → List (Nat × Char) → Option (List (Nat × Char))
  | [], _, _, _, acc => some acc.reverse
  | _ :: _, [], _, _, _ => none
  | ca :: as1, cb :: bs, i, cnt, acc =>
    if ca ≠ cb then
      if cnt + 1 > maxDiffs then none
      else diffLoop maxDiffs as1 bs (i + 1) (cnt + 1) ((i, cb) :: acc)
    else diffLoop maxDiffs as1 bs (i + 1) cnt acc

/-- `getDiff(stra, strb, maxDiffs)`: `null` when the lengths differ;
otherwise diff `stripAnsi(stra)` (the new line is *not* stripped) against
`strb`. -/
def getDiff (stra strb : List Char) (maxDiffs : Nat) : Option (List (Nat × Char)) :=
  if stra.length ≠ strb.length then none
  else diffLoop maxDiffs (stripAnsi stra) strb 0 0 []

/-- The terminal writes `UIRenderer.draw` can emit for one line. -/
inductive TermChunk
  | eraseLine
  | eraseEol
  | cursorSol
  | cursorDown (n : Nat)
  | cursorUp (n : Nat)
  | cursorRight (n : Nat)
  | text (s : List Char)
  | char (c : Char)
deriving DecidableEq, Repr

/-- The per-line body of the redraw loop of `UIRenderer.draw` (with
`diffChars = 1`): a `null` diff erases to end of line and rewrites; an empty
diff just moves on; otherwise (after `assert(diff.size <= diffChars)`,
modelled as `none` on failure) each diff entry becomes a cursor move plus a
one-character write. -/
def drawLine (prev new : List Char) : Option (List TermChunk) :=
  match getDiff prev new 1 with
  | none => some [.cursorSol, .eraseEol, .text new, .cursorDown 1, .cursorSol]
  | some [] => some [.cursorDown 1]
  | some diffs =>
    if diffs.length ≤ 1 then
      some ((diffs.flatMap fun p => [.cursorSol, .cursorRight p.1, .char p.2])
        ++ [.cursorDown 1, .cursorSol])
    else none

/-- Number of positions at which two equal-length lines differ (the spec's
"differs in at most one character position"). -/
def diffPositions (a b : List Char) : Nat :=
  ((a.zip b).filter fun p => decide (p.1 ≠ p.2)).length

/-- The list of `(index, new char)` mismatches between two lines, starting
at index `i` — the value `diffLoop` accumulates when it does not give up. -/
def diffsFrom (i : Nat) : List Char → List Char → List (Nat × Char)
  | [], _ => []
  | _ :: _, [] => []
  | ca :: as1, cb :: bs =>
    if ca ≠ cb then (i, cb) :: diffsFrom (i + 1) as1 bs
    else diffsFrom (i + 1) as1 bs

/-! ## Concrete values used by witnesses -/

/-- The task produced by
`[task "a", step "a" "s", step Running "a" "s"]`. -/
def demoTask : Task :=
  { name := "a"
    message := ""
    steps := [("s", { name := "s", status := .running, message := "" })]
    stopped := 0
    running := 1
    failed := 0
    skipped := 0
    done := 0
    status := .stopped }

/-- The state reached by `Semaphore(1)` after
`[submit 0, submit 1, finish 0 (reject), finish 1 (resolve)]`. -/
def demoSemFinal : SemState :=
  { max := 1, queue := [], running := [], started := [0, 1],
    settled := [0, 1], submitted := [0, 1] }

/-- An enabled cache starting empty. -/
def demoCacheSt : CacheState :=
  { ignore := false, cacheMap := [], hasChanged := false, version := 0 }

/-- A disabled cache (`ignore = true`). -/
def demoDisabledSt : CacheState :=
  { ignore := true, cacheMap := [], hasChanged := false, version := 0 }

/-! ## Lemmas about the association-list map -/

theorem alGet_alSet_self {α : Type} (m : List (String × α)) (k : String) (v : α) :
    alGet (alSet m k v) k = some v := by
  induction m with
  | nil => simp [alSet, alGet]
  | cons hd tl ih =>
    by_cases h : hd.1 = k
    · simp [alSet, alGet, h]
    · simpa [alSet, alGet, h] using ih

theorem length_alSet_isSome {α : Type} (m : List (String × α)) (k : String) (v : α)
    (h : (alGet m k).isSome) : (alSet m k v).length = m.length := by
  induction m with
  | nil => simp [alGet] at h
  | cons hd tl ih =>
    by_cases hk : hd.1 = k
    · simp [alSet, hk]
    · simp only [alGet, hk, if_false] at h
      simp [alSet, hk, ih h]

theorem length_alSet_none {α : Type} (m : List (String × α)) (k : String) (v : α)
    (h : alGet m k = none) : (alSet m k v).length = m.length + 1 := by
  induction m with
  | nil => simp [alSet]
  | cons hd tl ih =>
    by_cases hk : hd.1 = k
    · simp [alGet, hk] at h
    · simp only [alGet, hk, if_false] at h
      simp [alSet, hk, ih h]

theorem mem_alSet {α : Type} {m : List (String × α)} {k : String} {v : α}
    {p : String × α} (h : p ∈ alSet m k v) : p = (k, v) ∨ p ∈ m := by
  induction m with
  | nil => simpa [alSet] using h
  | cons hd tl ih =>
    by_cases hk : hd.1 = k
    · simp only [alSet, hk, if_true] at h
      rcases List.mem_cons.mp h with h | h
      · exact Or.inl h
      · exact Or.inr (List.mem_cons_of_mem _ h)
    · simp only [alSet, hk, if_false] at h
      rcases List.mem_cons.mp h with h | h
      · exact Or.inr (h ▸ List.mem_cons_self _ _)
      · rcases ih h with h | h
        · exact Or.inl h
        · exact Or.inr (List.mem_cons_of_mem _ h)

theorem alGet_mem {α : Type} (m : List (String × α)) (k : String) {v : α}
    (h : alGet m k = some v) : (k, v) ∈ m := by
  induction m with
  | nil => simp [alGet] at h
  | cons hd tl ih =>
    by_cases hk : hd.1 = k
    · simp only [alGet, hk, if_true] at h
      injection h with h
      subst h
      subst hk
      exact List.mem_cons_self _ _
    · simp only [alGet, hk, if_false] at h
      exact List.mem_cons_of_mem _ (ih h)

theorem alWF_alSet {α : Type} (m : List (String × α)) (k : String) (v : α)
    (h : alWF m) : alWF (alSet m k v) := by
  induction m with
  | nil => simp [alSet, alWF]
  | cons hd tl ih =>
    simp only [alWF, List.map_cons, List.nodup_cons] at h
    by_cases hk : hd.1 = k
    · simp only [alSet, hk, if_true, alWF, List.map_cons, List.nodup_cons]
      exact ⟨hk ▸ h.1, h.2⟩
    · simp only [alSet, hk, if_false, alWF, List.map_cons, List.nodup_cons]
      refine ⟨?_, ih h.2⟩
      intro hmem
      obtain ⟨p, hp, hp1⟩ := List.mem_map.mp hmem
      rcases mem_alSet hp with hp' | hp'
      · exact hk (by rw [← hp1, hp'])
      · exact h.1 (hp1 ▸ List.mem_map_of_mem Prod.fst hp')

theorem alGet_none_of_not_mem_keys {α : Type} {m : List (String × α)} {k : String}
    (h : k ∉ m.map Prod.fst) : alGet m k = none := by
  induction m with
  | nil => simp [alGet]
  | cons hd tl ih =>
    simp only [List.map_cons, List.mem_cons, not_or] at h
    have hk : hd.1 ≠ k := fun hc => h.1 hc.symm
    simp only [alGet, if_neg hk]
    exact ih h.2

theorem alGet_alRemove_self {α : Type} (m : List (String × α)) (k : String)
    (h : alWF m) : alGet (alRemove m k) k = none := by
  induction m with
  | nil => simp [alRemove, alGet]
  | cons hd tl ih =>
    simp only [alWF, List.map_cons, List.nodup_cons] at h
    by_cases hk : hd.1 = k
    · simp only [alRemove, hk, if_true]
      exact alGet_none_of_not_mem_keys (hk ▸ h.1)
    · simp only [alRemove, hk, if_false, alGet, if_neg hk]
      exact ih h.2

/-! ## Registry invariant (C1) -/

theorem statSum_changeStat (t : Task) (st : Status) (n : Int) :
    (t.changeStat st n).statSum = t.statSum + n := by
  cases st <;> simp [Task.changeStat, Task.statSum] <;> ring

theorem steps_changeStat (t : Task) (st : Status) (n : Int) :
    (t.changeStat st n).steps = t.steps := by
  cases st <;> rfl

theorem sizeInv_init (name : String) (m : Option String) : (Task.init name m).sizeInv := by
  simp [Task.init, Task.sizeInv, Task.statSum]

theorem sizeInv_addStep (t : Task) (name : String) (m : Option String)
    (h : t.sizeInv) : (t.addStep name m).sizeInv := by
  unfold Task.addStep
  cases hg : alGet t.steps name with
  | some step =>
    cases m with
    | some msg =>
      have hlen := length_alSet_isSome t.steps name { step with message := msg } (by simp [hg])
      simpa [Task.sizeInv, Task.statSum, hlen] using h
    | none => exact h
  | none =>
    have hlen := length_alSet_none t.steps name
      { name := name, status := .stopped, message := m.getD "" } hg
    simp only [Task.sizeInv, Task.statSum] at h ⊢
    simp [hlen]
    omega

theorem sizeInv_setStepStatus (t : Task) (name : String) (st : Status)
    (m : Option String) (h : t.sizeInv) : (t.setStepStatus name st m).sizeInv := by
  simp only [Task.setStepStatus]
  generalize hX : (if (alGet t.steps name).isSome then t else t.addStep name m) = t1
  have h1 : t1.sizeInv := by
    rw [← hX]
    split
    · exact h
    · exact sizeInv_addStep t name m h
  rcases hg : alGet t1.steps name with _ | step
  · simp only [hg]
    exact h1
  · simp only [hg]
    have h1' := h1
    simp only [Task.sizeInv, Task.statSum] at h1'
    by_cases hc : st = Status.stopped ∧ m.isSome = true
    · have hlen := length_alSet_isSome t1.steps name
        { step with message := m.getD step.message } (by simp [hg])
      simp only [if_pos hc, Task.sizeInv, Task.statSum]
      simp only [hlen]
      exact h1'
    · have hlen := length_alSet_isSome t1.steps name
        { step with status := st, message := m.getD step.message } (by simp [hg])
      simp only [if_neg hc, Task.sizeInv]
      rw [statSum_changeStat, statSum_changeStat, steps_changeStat, steps_changeStat]
      simp only [Task.statSum, hlen]
      omega

theorem regInv_applyEvent {r r' : Registry} {e : Event}
    (h : RegInv r) (happ : applyEvent r e = some r') : RegInv r' := by
  cases e with
  | task name message =>
    simp only [applyEvent] at happ
    cases hg : alGet r name with
    | some t =>
      rw [hg] at happ
      cases message with
      | some msg =>
        simp only at happ
        injection happ with happ
        subst happ
        intro p hp
        rcases mem_alSet hp with hp | hp
        · subst hp
          have ht : Task.sizeInv t := by
            have := alGet_mem r name hg
            exact h _ this
          simpa [Task.sizeInv, Task.statSum] using ht
        · exact h _ hp
      | none =>
        injection happ with happ
        subst happ
        exact h
    | none =>
      rw [hg] at happ
      injection happ with happ
      subst happ
      intro p hp
      rcases mem_alSet hp with hp | hp
      · subst hp
        exact sizeInv_init name message
      · exact h _ hp
  | taskStatus st name message =>
    simp only [applyEvent] at happ
    generalize hX : (if (alGet r name).isSome then r else alSet r name (Task.init name message)) = r1 at happ
    have h1 : RegInv r1 := by
      rw [← hX]
      split
      · exact h
      · intro p hp
        rcases mem_alSet hp with hp | hp
        · subst hp
          exact sizeInv_init name message
        · exact h _ hp
    cases hg : alGet r1 name with
    | none => rw [hg] at happ; exact absurd happ (by simp)
    | some t =>
      rw [hg] at happ
      injection happ with happ
      subst happ
      intro p hp
      rcases mem_alSet hp with hp | hp
      · subst hp
        have ht : Task.sizeInv t := h1 _ (alGet_mem r1 name hg)
        simpa [Task.sizeInv, Task.statSum] using ht
      · exact h1 _ hp
  | step tname name message =>
    simp only [applyEvent] at happ
    cases hg : alGet r tname with
    | none => rw [hg] at happ; exact absurd happ (by simp)
    | some t =>
      rw [hg] at happ
      injection happ with happ
      subst happ
      intro p hp
      rcases mem_alSet hp with hp | hp
      · subst hp
        exact sizeInv_addStep t name message (h _ (alGet_mem r tname hg))
      · exact h _ hp
  | stepStatus st tname name message =>
    simp only [applyEvent] at happ
    cases hg : alGet r tname with
    | none => rw [hg] at happ; exact absurd happ (by simp)
    | some t =>
      rw [hg] at happ
      injection happ with happ
      subst happ
      intro p hp
      rcases mem_alSet hp with hp | hp
      · subst hp
        exact sizeInv_setStepStatus t name st message (h _ (alGet_mem r tname hg))
      · exact h _ hp

theorem regInv_applyEvents {r r' : Registry} {evs : List Event}
    (h : RegInv r) (happ : applyEvents r evs = some r') : RegInv r' := by
  induction evs generalizing r with
  | nil =>
    simp only [applyEvents] at happ
    injection happ with happ
    subst happ
    exact h
  | cons e es ih =>
    simp only [applyEvents] at happ
    cases he : applyEvent r e with
    | none => rw [he] at happ; exact absurd happ (by simp)
    | some r1 =>
      rw [he] at happ
      exact ih (regInv_applyEvent h he) happ

/-- C1: for every task in the registry and every sequence of task/step
events applied to it (implicit step creation, status transitions, and the
Stopped-with-message special case), the equation
`stopped + running + failed + skipped + done == steps.size` holds after
every event (every prefix of a run is itself a run). -/
theorem registry_count_invariant (evs : List Event) (r : Registry)
    (h : applyEvents [] evs = some r) (name : String) (t : Task)
    (hmem : (name, t) ∈ r) :
    t.stopped + t.running + t.failed + t.skipped + t.done = (t.steps.length : Int) := by
  have hinv := regInv_applyEvents (r := []) (fun p hp => absurd hp (List.not_mem_nil p)) h
  exact hinv (name, t) hmem

/-- Witness for C1 at a concrete event sequence exercising implicit step
creation and a status transition. -/
theorem registry_count_invariant_witness :
    demoTask.stopped + demoTask.running + demoTask.failed + demoTask.skipped + demoTask.done
      = (demoTask.steps.length : Int) :=
  registry_count_invariant
    [.task "a" none, .step "a" "s" none, .stepStatus .running "a" "s" none]
    [("a", demoTask)] (by decide) "a" demoTask (by decide)

/-- C9 counterexample: a `step` event whose task name was never referenced
before makes the handler dereference `undefined` (`this.tasks.get(tname)`)
and throw, modelled as `none` — the task is not created. -/
theorem step_event_absent_task_throws :
    applyEvents [] [Event.step "build" "compile" none] = none := by
  decide

/-- C9 (amended): `task` and `task <Status>` events create the task when it
is absent, but `step` and `step <Status>` events do not — on a task name no
earlier event referenced, they fail instead of creating the task. -/
theorem task_created_only_by_task_events (r : Registry) (tname sname : String)
    (st : Status) (m : Option String) (habs : alGet r tname = none) :
    (∃ r', applyEvent r (.task tname m) = some r' ∧ (alGet r' tname).isSome)
    ∧ (∃ r', applyEvent r (.taskStatus st tname m) = some r' ∧ (alGet r' tname).isSome)
    ∧ applyEvent r (.step tname sname m) = none
    ∧ applyEvent r (.stepStatus st tname sname m) = none := by
  refine ⟨⟨alSet r tname (Task.init tname m), ?_, ?_⟩, ?_, ?_, ?_⟩
  · simp [applyEvent, habs]
  · simp [alGet_alSet_self]
  · refine ⟨alSet (alSet r tname (Task.init tname m)) tname
      { (Task.init tname m) with status := st, message := m.getD (Task.init tname m).message }, ?_, ?_⟩
    · simp [applyEvent, habs, alGet_alSet_self]
    · simp [alGet_alSet_self]
  · simp [applyEvent, habs]
  · simp [applyEvent, habs]

/-- Witness for the amended C9 at the empty registry. -/
theorem task_created_only_by_task_events_witness :
    ((∃ r', applyEvent [] (.task "t" none) = some r' ∧ (alGet r' "t").isSome)
    ∧ (∃ r', applyEvent [] (.taskStatus .running "t" none) = some r' ∧ (alGet r' "t").isSome)
    ∧ applyEvent [] (.step "t" "s" none) = none
    ∧ applyEvent [] (.stepStatus .running "t" "s" none) = none) :=
  task_created_only_by_task_events [] "t" "s" .running none (by decide)

/-! ## Cache theorems (C4, C7, C8, C10) -/

theorem hasExpired_false_of_le (e : CacheEntry) (rand now : Nat)
    (h : ¬ e.timeoutAt + rand ≤ now) : e.hasExpired rand now = false := by
  unfold CacheEntry.hasExpired
  split
  · rfl
  · exact decide_eq_false h

theorem hasExpired_true_of_lt (e : CacheEntry) (rand now : Nat)
    (hne : e.timeoutAt ≠ e.createdAt) (h : e.timeoutAt + rand ≤ now) :
    e.hasExpired rand now = true := by
  unfold CacheEntry.hasExpired
  rw [if_neg hne]
  exact decide_eq_true h

/-- C4: storing an entry with `ttl > 0` and immediately reading it back
returns the data; once the current time exceeds `timeoutAt` plus the
maximum jitter (`timeoutAt - createdAt`), `getCache` returns `null`,
removes the entry from the index and deletes the payload file. -/
theorem cache_roundtrip_and_expiry
    (st : CacheState) (fsim : FSim) (name file data : String)
    (ttl now rand1 now2 rand2 : Nat)
    (hig : st.ignore = false) (hwfm : alWF st.cacheMap) (hwff : alWF fsim)
    (httl : 0 < ttl) (hrand2 : rand2 < ttl) (hnow2 : now + ttl + ttl < now2) :
    (getCache (cacheOp st fsim name file data ttl now).2.1
        (cacheOp st fsim name file data ttl now).2.2 name file rand1 now).1 = some data
    ∧ (getCache (cacheOp st fsim name file data ttl now).2.1
        (cacheOp st fsim name file data ttl now).2.2 name file rand2 now2).1 = none
    ∧ alGet (getCache (cacheOp st fsim name file data ttl now).2.1
        (cacheOp st fsim name file data ttl now).2.2 name file rand2 now2).2.1.cacheMap
        (name ++ "/" ++ file) = none
    ∧ alGet (getCache (cacheOp st fsim name file data ttl now).2.1
        (cacheOp st fsim name file data ttl now).2.2 name file rand2 now2).2.2
        (name ++ "/" ++ file) = none := by
  have hign : (cacheOp st fsim name file data ttl now).2.1.ignore = false := by
    simp [cacheOp, hig]
  have hmap : (cacheOp st fsim name file data ttl now).2.1.cacheMap =
      alSet st.cacheMap (name ++ "/" ++ file) (⟨name, file, now, now + ttl⟩ : CacheEntry) := by
    simp [cacheOp, hig, CacheEntry.path]
  have hfsim : (cacheOp st fsim name file data ttl now).2.2 =
      alSet fsim (name ++ "/" ++ file) data := by
    simp [cacheOp, hig, CacheEntry.path]
  have hexp1 : (⟨name, file, now, now + ttl⟩ : CacheEntry).hasExpired rand1 now = false :=
    hasExpired_false_of_le _ _ _ (show ¬ (now + ttl + rand1 ≤ now) by omega)
  have hexp2 : (⟨name, file, now, now + ttl⟩ : CacheEntry).hasExpired rand2 now2 = true :=
    hasExpired_true_of_lt _ _ _ (show now + ttl ≠ now by omega)
      (show now + ttl + rand2 ≤ now2 by omega)
  refine ⟨?_, ?_, ?_, ?_⟩
  · simp [getCache, hign, hmap, hfsim, alGet_alSet_self, CacheEntry.path, hexp1]
  · simp [getCache, hign, hmap, hfsim, alGet_alSet_self, CacheEntry.path, hexp2]
  · simp [getCache, hign, hmap, hfsim, alGet_alSet_self, CacheEntry.path, hexp2]
    exact alGet_alRemove_self _ _ (alWF_alSet _ _ _ hwfm)
  · simp [getCache, hign, hmap, hfsim, alGet_alSet_self, CacheEntry.path, hexp2]
    exact alGet_alRemove_self _ _ (alWF_alSet _ _ _ hwff)

/-- Witness for C4 at a concrete store/read/expire run. -/
theorem cache_roundtrip_and_expiry_witness :
    (getCache (cacheOp demoCacheSt [] "a" "b" "d" 2 10).2.1
        (cacheOp demoCacheSt [] "a" "b" "d" 2 10).2.2 "a" "b" 0 10).1 = some "d"
    ∧ (getCache (cacheOp demoCacheSt [] "a" "b" "d" 2 10).2.1
        (cacheOp demoCacheSt [] "a" "b" "d" 2 10).2.2 "a" "b" 1 15).1 = none
    ∧ alGet (getCache (cacheOp demoCacheSt [] "a" "b" "d" 2 10).2.1
        (cacheOp demoCacheSt [] "a" "b" "d" 2 10).2.2 "a" "b" 1 15).2.1.cacheMap
        ("a" ++ "/" ++ "b") = none
    ∧ alGet (getCache (cacheOp demoCacheSt [] "a" "b" "d" 2 10).2.1
        (cacheOp demoCacheSt [] "a" "b" "d" 2 10).2.2 "a" "b" 1 15).2.2
        ("a" ++ "/" ++ "b") = none :=
  cache_roundtrip_and_expiry demoCacheSt [] "a" "b" "d" 2 10 0 15 1
    rfl (by simp [alWF, demoCacheSt]) (by simp [alWF]) (by decide) (by decide) (by decide)

/-- C7 counterexample: `Cache.open()` on an index file that exists but
cannot be parsed raises (`fs.readJSON` throws) instead of starting cold. -/
theorem cache_open_unreadable_throws :
    cacheOpen demoCacheSt IndexFile.unreadable = .error () := rfl

/-- C7 (amended): `Cache.open()` starts with an empty cache when the index
file is missing or its stored version does not match the expected schema
version, but an unreadable (unparseable) index file makes `open()` raise. -/
theorem cache_open_behaviour (st : CacheState) (v : Nat)
    (entries : List (String × CacheEntry)) (hv : v ≠ st.version) :
    cacheOpen st .missing = .ok st
    ∧ cacheOpen st (.valid v entries) = .ok st
    ∧ cacheOpen st .unreadable = .error () := by
  refine ⟨rfl, ?_, rfl⟩
  simp [cacheOpen, readCacheInfo, hv]

/-- Witness for the amended C7. -/
theorem cache_open_behaviour_witness :
    cacheOpen demoCacheSt .missing = .ok demoCacheSt
    ∧ cacheOpen demoCacheSt (.valid 1 []) = .ok demoCacheSt
    ∧ cacheOpen demoCacheSt .unreadable = .error () :=
  cache_open_behaviour demoCacheSt 1 [] (by decide)

/-- C8 counterexample: `NullCache.cache` returns `true`, not `false`. -/
theorem nullcache_cache_returns_true :
    nullCacheOp "a" "b" "data" 7200 = true := rfl

/-- C8 (amended): when caching is disabled, the real cache's
`cache(name, file, data, ttl)` is a no-op returning `false`; the Null-cache
variant's `cache` is also a no-op with the same interface but returns
`true` (and its `getCache` always reports a miss). -/
theorem disabled_cache_noop (st : CacheState) (fsim : FSim)
    (name file data : String) (ttl now : Nat) (hig : st.ignore = true) :
    cacheOp st fsim name file data ttl now = (false, st, fsim)
    ∧ nullCacheOp name file data ttl = true
    ∧ nullCacheGet name file = none := by
  refine ⟨?_, rfl, rfl⟩
  simp [cacheOp, hig]

/-- Witness for the amended C8. -/
theorem disabled_cache_noop_witness :
    cacheOp demoDisabledSt [] "a" "b" "d" 7200 0 = (false, demoDisabledSt, [])
    ∧ nullCacheOp "a" "b" "d" 7200 = true
    ∧ nullCacheGet "a" "b" = none :=
  disabled_cache_noop demoDisabledSt [] "a" "b" "d" 7200 0 rfl

/-- C10: an entry stored with `ttl = 0` has `timeoutAt == createdAt` (as
produced by `getPRInfo`'s expire callback returning 0 for a merged PR) and
never expires: `hasExpired` is false at every later time, and `getCache`
keeps returning the payload and leaves the cache unchanged. -/
theorem ttl_zero_never_expires (st : CacheState) (fsim : FSim)
    (name file data : String) (now now2 rand : Nat) (hig : st.ignore = false) :
    (⟨name, file, now, now + 0⟩ : CacheEntry).hasExpired rand now2 = false
    ∧ getCache (cacheOp st fsim name file data 0 now).2.1
        (cacheOp st fsim name file data 0 now).2.2 name file rand now2
        = (some data, (cacheOp st fsim name file data 0 now).2.1,
            (cacheOp st fsim name file data 0 now).2.2)
    ∧ prExpire (some "2024-01-01T00:00:00Z") = 0 := by
  have hexp : (⟨name, file, now, now + 0⟩ : CacheEntry).hasExpired rand now2 = false := by
    simp [CacheEntry.hasExpired]
  refine ⟨hexp, ?_, rfl⟩
  have hign : (cacheOp st fsim name file data 0 now).2.1.ignore = false := by
    simp [cacheOp, hig]
  have hmap : (cacheOp st fsim name file data 0 now).2.1.cacheMap =
      alSet st.cacheMap (name ++ "/" ++ file) (⟨name, file, now, now + 0⟩ : CacheEntry) := by
    simp [cacheOp, hig, CacheEntry.path]
  have hfsim : (cacheOp st fsim name file data 0 now).2.2 =
      alSet fsim (name ++ "/" ++ file) data := by
    simp [cacheOp, hig, CacheEntry.path]
  have hget : getCache (cacheOp st fsim name file data 0 now).2.1
      (cacheOp st fsim name file data 0 now).2.2 name file rand now2 =
      (some data, (cacheOp st fsim name file data 0 now).2.1,
        (cacheOp st fsim name file data 0 now).2.2) := by
    simp [getCache, hign, hmap, hfsim, alGet_alSet_self, CacheEntry.path, hexp,
      CacheEntry.hasExpired]
  exact hget

/-- Witness for C10. -/
theorem ttl_zero_never_expires_witness :
    (⟨"a", "b", 5, 5 + 0⟩ : CacheEntry).hasExpired 3 1000000 = false
    ∧ getCache (cacheOp demoCacheSt [] "a" "b" "d" 0 5).2.1
        (cacheOp demoCacheSt [] "a" "b" "d" 0 5).2.2 "a" "b" 3 1000000
        = (some "d", (cacheOp demoCacheSt [] "a" "b" "d" 0 5).2.1,
            (cacheOp demoCacheSt [] "a" "b" "d" 0 5).2.2)
    ∧ prExpire (some "2024-01-01T00:00:00Z") = 0 :=
  ttl_zero_never_expires demoCacheSt [] "a" "b" "d" 5 1000000 3 rfl

/-! ## fetchCached error handling (C5) -/

/-- C5: if the HTTP request performed inside `fetchCached` throws (transport
failure, non-2xx status other than 404, or JSON deserialization failure),
`fetchCached` returns `(null, false)` instead of propagating the error, and
nothing is written to the cache. -/
theorem fetchCached_swallows_fetch_errors {α : Type} (parse : String → α)
    (transport : Option (Nat × Except Unit α)) (expire : ExpireSpec α)
    (stringify : α → String) (e : FetchErr)
    (herr : fetchModel transport = .error e) :
    fetchCached none parse transport expire stringify = ((none, false), none) := by
  simp [fetchCached, herr]

/-- Witness for C5 at a transport failure. -/
theorem fetchCached_swallows_fetch_errors_witness :
    fetchCached (α := Nat) none (fun _ => 0) none (.num 1) (fun _ => "")
      = ((none, false), none) :=
  fetchCached_swallows_fetch_errors (fun _ => 0) none (.num 1) (fun _ => "")
    .transport rfl

/-! ## Elision exactness (C3) -/

/-- C3: for all non-negative `(done, running, waiting)` with
`done + running + waiting >= maxSteps`, `calculateSteps` succeeds (neither
internal leftover-budget assertion fires) with
`showDone + showRunning + showWaiting == maxSteps` exactly; and
`calculateSteps 10 1 10 8` yields `showDone = 3` (hidden), `showRunning = 1`
(not hidden), `showWaiting = 4` (hidden). -/
theorem calculateSteps_exact (done running waiting maxSteps : Int)
    (hd : 0 ≤ done) (hr : 0 ≤ running) (hw : 0 ≤ waiting) (hm : 0 ≤ maxSteps)
    (hsum : maxSteps ≤ done + running + waiting) :
    (∃ a, calculateSteps done running waiting maxSteps = some a
      ∧ a.showDone + a.showRunning + a.showWaiting = maxSteps)
    ∧ calculateSteps 10 1 10 8 =
        some { showDone := 3, hiddenDone := true, showRunning := 1,
               hiddenRunning := false, showWaiting := 4, hiddenWaiting := true } := by
  constructor
  · simp only [calculateSteps]
    rw [if_neg (by omega)]
    simp only [decide_eq_true_eq]
    set A := min 2 done + min 2 waiting with hA
    set SR := min running (maxSteps - A) with hSR
    set L1 := maxSteps - SR with hL1
    set LW := (L1 + 1) / 2 with hLW
    set SW := min LW waiting with hSW
    set L2 := L1 - SW with hL2
    set SD := min L2 done with hSD
    set L3 := L2 - SD with hL3
    by_cases hC : L3 ≠ 0 ∧ waiting > SW
    · rw [if_pos hC]
      simp only []
      rw [if_neg (by omega), if_neg (by omega)]
      refine ⟨_, rfl, ?_⟩
      simp only []
      omega
    · rw [if_neg hC]
      simp only []
      have hL30 : L3 = 0 := by
        rcases not_and_or.mp hC with h | h <;> omega
      rw [if_neg (by omega), if_neg (by omega)]
      refine ⟨_, rfl, ?_⟩
      simp only []
      omega
  · decide

/-- Witness for C3 at `(done, running, waiting, maxSteps) = (10, 1, 10, 8)`. -/
theorem calculateSteps_exact_witness :
    ((∃ a, calculateSteps 10 1 10 8 = some a
      ∧ a.showDone + a.showRunning + a.showWaiting = 8)
    ∧ calculateSteps 10 1 10 8 =
        some { showDone := 3, hiddenDone := true, showRunning := 1,
               hiddenRunning := false, showWaiting := 4, hiddenWaiting := true }) :=
  calculateSteps_exact 10 1 10 8 (by decide) (by decide) (by decide) (by decide)
    (by decide)

/-! ## Diff redraw minimality (C6) -/

theorem ansiMatch_eq_nil (c : Char) (rest : List Char)
    (h : isAnsiStarter c = false) : ansiMatch (c :: rest) = [] := by
  simp [ansiMatch, mSeq, mOne, h]

theorem stripAnsiGo_id (fuel : Nat) (s : List Char)
    (h : ∀ c ∈ s, isAnsiStarter c = false) : stripAnsiGo fuel s = s := by
  induction fuel generalizing s with
  | zero => rfl
  | succ n ih =>
    cases s with
    | nil => rfl
    | cons c rest =>
      have hc : isAnsiStarter c = false := h c (List.mem_cons_self _ _)
      simp only [stripAnsiGo, ansiMatch_eq_nil c rest hc]
      rw [ih rest (fun d hd => h d (List.mem_cons_of_mem _ hd))]

/-- The ansi regex can only match at an escape character, so a line without
one is left unchanged by `stripAnsi`. -/
theorem stripAnsi_id (s : List Char) (h : ∀ c ∈ s, isAnsiStarter c = false) :
    stripAnsi s = s :=
  stripAnsiGo_id s.length s h

theorem diffsFrom_length (a : List Char) : ∀ (b : List Char) (i : Nat),
    (diffsFrom i a b).length = diffPositions a b := by
  induction a with
  | nil => intro b i; cases b <;> simp [diffsFrom, diffPositions]
  | cons ca as1 ih =>
    intro b i
    cases b with
    | nil => simp [diffsFrom, diffPositions]
    | cons cb bs =>
      have h2 := ih bs (i + 1)
      by_cases hc : ca = cb
      · simpa [diffsFrom, diffPositions, hc] using h2
      · simpa [diffsFrom, diffPositions, hc] using h2

theorem diffsFrom_nil_eq (a : List Char) : ∀ (b : List Char) (i : Nat),
    a.length = b.length → diffsFrom i a b = [] → a = b := by
  induction a with
  | nil =>
    intro b i hlen _
    cases b with
    | nil => rfl
    | cons _ _ => simp at hlen
  | cons ca as1 ih =>
    intro b i hlen hnil
    cases b with
    | nil => simp at hlen
    | cons cb bs =>
      simp only [diffsFrom] at hnil
      by_cases hc : ca = cb
      · rw [if_neg (not_not_intro hc)] at hnil
        rw [hc, ih bs (i + 1) (by simpa using hlen) hnil]
      · rw [if_pos hc] at hnil
        exact absurd hnil (by simp)

theorem diffLoop_no_diffs (a : List Char) : ∀ (b : List Char) (i cnt : Nat)
    (acc : List (Nat × Char)), a.length ≤ b.length → diffsFrom i a b = [] →
    diffLoop 1 a b i cnt acc = some acc.reverse := by
  induction a with
  | nil => intro b i cnt acc _ _; simp [diffLoop]
  | cons ca as1 ih =>
    intro b i cnt acc hlen hnil
    cases b with
    | nil => simp at hlen
    | cons cb bs =>
      simp only [diffsFrom] at hnil
      simp only [diffLoop]
      by_cases hc : ca = cb
      · rw [if_neg (not_not_intro hc)] at hnil
        rw [if_neg (not_not_intro hc)]
        exact ih bs (i + 1) cnt acc (by simpa using hlen) hnil
      · rw [if_pos hc] at hnil
        exact absurd hnil (by simp)

theorem diffLoop_cnt_one (a : List Char) : ∀ (b : List Char) (i : Nat)
    (acc : List (Nat × Char)), a.length ≤ b.length →
    1 ≤ (diffsFrom i a b).length → diffLoop 1 a b i 1 acc = none := by
  induction a with
  | nil => intro b i acc _ hd; simp [diffsFrom] at hd
  | cons ca as1 ih =>
    intro b i acc hlen hd
    cases b with
    | nil => simp at hlen
    | cons cb bs =>
      simp only [diffsFrom] at hd
      simp only [diffLoop]
      by_cases hc : ca = cb
      · rw [if_neg (not_not_intro hc)] at hd
        rw [if_neg (not_not_intro hc)]
        exact ih bs (i + 1) acc (by simpa using hlen) hd
      · rw [if_pos hc]
        rfl

theorem diffLoop_one_diff (a : List Char) : ∀ (b : List Char) (i j : Nat)
    (c : Char) (acc : List (Nat × Char)), a.length ≤ b.length →
    diffsFrom i a b = [(j, c)] →
    diffLoop 1 a b i 0 acc = some (acc.reverse ++ [(j, c)]) := by
  induction a with
  | nil => intro b i j c acc _ hd; simp [diffsFrom] at hd
  | cons ca as1 ih =>
    intro b i j c acc hlen hd
    cases b with
    | nil => simp at hlen
    | cons cb bs =>
      simp only [diffsFrom] at hd
      simp only [diffLoop]
      by_cases hc : ca = cb
      · rw [if_neg (not_not_intro hc)] at hd
        rw [if_neg (not_not_intro hc)]
        exact ih bs (i + 1) j c acc (by simpa using hlen) hd
      · rw [if_pos hc] at hd
        rw [if_pos hc]
        simp only [List.cons.injEq, Prod.mk.injEq] at hd
        obtain ⟨⟨hj, hcb⟩, hrest⟩ := hd
        rw [if_neg (by omega)]
        rw [diffLoop_no_diffs as1 bs (i + 1) 1 ((i, cb) :: acc) (by simpa using hlen) hrest]
        simp [hj, hcb]

theorem diffLoop_many_diffs (a : List Char) : ∀ (b : List Char) (i : Nat)
    (acc : List (Nat × Char)), a.length ≤ b.length →
    2 ≤ (diffsFrom i a b).length → diffLoop 1 a b i 0 acc = none := by
  induction a with
  | nil => intro b i acc _ hd; simp [diffsFrom] at hd
  | cons ca as1 ih =>
    intro b i acc hlen hd
    cases b with
    | nil => simp at hlen
    | cons cb bs =>
      simp only [diffsFrom] at hd
      simp only [diffLoop]
      by_cases hc : ca = cb
      · rw [if_neg (not_not_intro hc)] at hd
        rw [if_neg (not_not_intro hc)]
        exact ih bs (i + 1) acc (by simpa using hlen) hd
      · rw [if_pos hc] at hd
        rw [if_pos hc]
        rw [if_neg (by omega)]
        simp only [List.length_cons] at hd
        exact diffLoop_cnt_one as1 bs (i + 1) ((i, cb) :: acc) (by simpa using hlen)
          (by omega)

theorem getDiff_spec (prev new : List Char)
    (hansi : ∀ c ∈ prev, isAnsiStarter c = false) (hlen : prev.length = new.length) :
    getDiff prev new 1 =
      if (diffsFrom 0 prev new).length ≤ 1 then some (diffsFrom 0 prev new)
      else none := by
  unfold getDiff
  rw [if_neg (not_not_intro hlen), stripAnsi_id prev hansi]
  rcases hd : diffsFrom 0 prev new with _ | ⟨⟨j, c⟩, rest⟩
  · rw [diffLoop_no_diffs prev new 0 0 [] (le_of_eq hlen) hd]
    simp
  · rcases rest with _ | ⟨p2, rest2⟩
    · rw [diffLoop_one_diff prev new 0 j c [] (le_of_eq hlen) hd]
      simp
    · rw [diffLoop_many_diffs prev new 0 [] (le_of_eq hlen) (by rw [hd]; simp)]
      rw [if_neg (by simp)]

/-- C6 counterexample: the previous frame line carries a color escape
(`"\x1B[33mab"`), the new line has the same length and differs in exactly
one character position, yet the emitted update is a full-line
erase-to-end-of-line and rewrite — `getDiff` strips ANSI codes from the
previous line only, so the character-by-character comparison misaligns. -/
theorem draw_full_rewrite_on_ansi_line :
    ("\x1B[33mab".toList.length = "\x1B[33mxb".toList.length)
    ∧ diffPositions "\x1B[33mab".toList "\x1B[33mxb".toList = 1
    ∧ drawLine "\x1B[33mab".toList "\x1B[33mxb".toList
        = some [.cursorSol, .eraseEol, .text "\x1B[33mxb".toList,
            .cursorDown 1, .cursorSol] := by
  refine ⟨by decide, by decide, by decide⟩

/-- C6 (amended): for every line whose *previous* text contains no ANSI
escape starter (so `stripAnsi` leaves it unchanged): when the new text has
the same length and differs in at most one character position, the emitted
update is a single cursor positioning plus one character write (or only a
cursor advance when the lines are identical); when the lengths differ or
more than one character differs, the whole line is erased to end of line
and rewritten. -/
theorem draw_line_minimal (prev new : List Char)
    (hansi : ∀ c ∈ prev, isAnsiStarter c = false) :
    (prev.length = new.length → diffPositions prev new ≤ 1 →
      (prev = new ∧ drawLine prev new = some [.cursorDown 1])
      ∨ (∃ i c, drawLine prev new
          = some [.cursorSol, .cursorRight i, .char c, .cursorDown 1, .cursorSol]))
    ∧ (prev.length ≠ new.length →
        drawLine prev new
          = some [.cursorSol, .eraseEol, .text new, .cursorDown 1, .cursorSol])
    ∧ (prev.length = new.length → 1 < diffPositions prev new →
        drawLine prev new
          = some [.cursorSol, .eraseEol, .text new, .cursorDown 1, .cursorSol]) := by
  refine ⟨?_, ?_, ?_⟩
  · intro hlen hdp
    have hgd := getDiff_spec prev new hansi hlen
    have hcnt := diffsFrom_length prev new 0
    rcases hd : diffsFrom 0 prev new with _ | ⟨⟨j, c⟩, rest⟩
    · left
      refine ⟨diffsFrom_nil_eq prev new 0 hlen hd, ?_⟩
      rw [hd] at hgd
      simp only [List.length_nil, Nat.zero_le, if_pos] at hgd
      simp [drawLine, hgd]
    · rcases rest with _ | ⟨p2, rest2⟩
      · right
        refine ⟨j, c, ?_⟩
        rw [hd] at hgd
        simp only [List.length_cons, List.length_nil, le_refl, if_pos] at hgd
        simp [drawLine, hgd]
      · exfalso
        rw [hd] at hcnt
        simp only [List.length_cons] at hcnt
        omega
  · intro hne
    simp [drawLine, getDiff, hne]
  · intro hlen hdp
    have hgd := getDiff_spec prev new hansi hlen
    have hcnt := diffsFrom_length prev new 0
    rw [if_neg (by omega)] at hgd
    simp [drawLine, hgd]

/-- Witness for the amended C6 at the spec's own example lines
`"A b C"` / `"A x C"`. -/
theorem draw_line_minimal_witness :
    ("A b C".toList = "A x C".toList
      ∧ drawLine "A b C".toList "A x C".toList = some [.cursorDown 1])
    ∨ (∃ i c, drawLine "A b C".toList "A x C".toList
        = some [.cursorSol, .cursorRight i, .char c, .cursorDown 1, .cursorSol]) :=
  (draw_line_minimal "A b C".toList "A x C".toList (by decide)).1
    (by decide) (by decide)

/-! ## Semaphore theorems (C2) -/

theorem semInv_init (k : Nat) (hk : 0 < k) : SemInv (semInit k) := by
  refine ⟨hk, by simp [semInit], by simp [semInit], by simp [semInit], by simp [semInit]⟩

theorem semExecute_max (s : SemState) : (semExecute s).max = s.max := by
  unfold semExecute
  split
  · rfl
  · cases s.queue <;> rfl

theorem semExecute_submitted (s : SemState) :
    (semExecute s).submitted = s.submitted := by
  unfold semExecute
  split
  · rfl
  · cases s.queue <;> rfl

theorem semInv_submit (s : SemState) (id : Nat) (h : SemInv s) :
    SemInv (semSubmit s id) := by
  obtain ⟨hmax, hble, hfull, hfifo, hperm⟩ := h
  simp only [semSubmit, semExecute]
  by_cases hful : s.running.length = s.max
  · rw [if_pos hful]
    refine ⟨hmax, hble, fun _ => hful, ?_, hperm⟩
    rw [← List.append_assoc, hfifo]
  · rw [if_neg hful]
    have hq : s.queue = [] := by
      by_contra hqq
      exact hful (hfull hqq)
    rw [hq] at hfifo
    simp only [List.append_nil] at hfifo
    simp only [hq, List.nil_append]
    refine ⟨hmax, ?_, ?_, ?_, ?_⟩
    · simp only [List.length_append, List.length_cons, List.length_nil]
      omega
    · intro hc
      exact absurd rfl hc
    · simp [hfifo]
    · show (s.started ++ [id]).Perm ((s.running ++ [id]) ++ s.settled)
      have p1 : (s.started ++ [id]).Perm ((s.running ++ s.settled) ++ [id]) :=
        hperm.append_right [id]
      have p2 : ((s.running ++ s.settled) ++ [id]).Perm ((s.running ++ [id]) ++ s.settled) := by
        rw [List.append_assoc, List.append_assoc]
        exact List.Perm.append_left _ List.perm_append_comm
      exact p1.trans p2

theorem semInv_finish (s : SemState) (id : Nat) (ok : Bool) (h : SemInv s)
    (hid : id ∈ s.running) : SemInv (semFinish s id ok) := by
  obtain ⟨hmax, hble, hfull, hfifo, hperm⟩ := h
  have hlen : (s.running.erase id).length = s.running.length - 1 :=
    List.length_erase_of_mem hid
  have hpcons : s.running.Perm (id :: s.running.erase id) := List.perm_cons_erase hid
  have hperm1 : s.started.Perm (s.running.erase id ++ (s.settled ++ [id])) := by
    have q1 : s.started.Perm ((id :: s.running.erase id) ++ s.settled) :=
      hperm.trans (hpcons.append_right s.settled)
    have q2 : (id :: (s.running.erase id ++ s.settled)).Perm
        ((s.running.erase id ++ s.settled) ++ [id]) :=
      (List.perm_append_singleton _ _).symm
    have q3 : ((s.running.erase id ++ s.settled) ++ [id]).Perm
        (s.running.erase id ++ (s.settled ++ [id])) := by
      rw [List.append_assoc]
    exact q1.trans (q2.trans q3)
  simp only [semFinish]
  by_cases hq : s.queue = []
  · rw [if_neg (not_not_intro hq)]
    rw [hq] at hfifo
    simp only [List.append_nil] at hfifo
    refine ⟨hmax, ?_, ?_, ?_, hperm1⟩
    · show (s.running.erase id).length ≤ s.max
      omega
    · intro hc
      exact absurd hq hc
    · simp [hq, hfifo]
  · rw [if_pos hq]
    have hfl : s.running.length = s.max := hfull hq
    simp only [semExecute]
    rw [if_neg (show ¬ ((s.running.erase id).length = s.max) by omega)]
    cases hqc : s.queue with
    | nil => exact absurd hqc hq
    | cons q qs =>
      rw [hqc] at hfifo
      simp only []
      refine ⟨hmax, ?_, ?_, ?_, ?_⟩
      · simp only [List.length_append, List.length_cons, List.length_nil]
        omega
      · intro _
        simp only [List.length_append, List.length_cons, List.length_nil]
        omega
      · rw [List.append_assoc, List.singleton_append, hfifo]
      · show (s.started ++ [q]).Perm
            ((s.running.erase id ++ [q]) ++ (s.settled ++ [id]))
        have p1 : (s.started ++ [q]).Perm
            ((s.running.erase id ++ (s.settled ++ [id])) ++ [q]) :=
          hperm1.append_right [q]
        have p2 : ((s.running.erase id ++ (s.settled ++ [id])) ++ [q]).Perm
            ((s.running.erase id ++ [q]) ++ (s.settled ++ [id])) := by
          rw [List.append_assoc (s.running.erase id) (s.settled ++ [id]) [q],
            List.append_assoc (s.running.erase id) [q] (s.settled ++ [id])]
          exact List.Perm.append_left _ List.perm_append_comm
        exact p1.trans p2

theorem semStep_inv {s s' : SemState} {e : SemEvent} (h : SemInv s)
    (hst : semStep s e = some s') : SemInv s' := by
  cases e with
  | submit id =>
    simp only [semStep] at hst
    by_cases hmem : id ∈ s.submitted
    · rw [if_pos hmem] at hst
      exact absurd hst (by simp)
    · rw [if_neg hmem] at hst
      injection hst with hst
      subst hst
      exact semInv_submit s id h
  | finish id ok =>
    simp only [semStep] at hst
    by_cases hmem : id ∈ s.running
    · rw [if_pos hmem] at hst
      injection hst with hst
      subst hst
      exact semInv_finish s id ok h hmem
    · rw [if_neg hmem] at hst
      exact absurd hst (by simp)

theorem semFinish_max (s : SemState) (id : Nat) (ok : Bool) :
    (semFinish s id ok).max = s.max := by
  simp only [semFinish]
  split
  · rw [semExecute_max]
  · rfl

theorem semFinish_submitted (s : SemState) (id : Nat) (ok : Bool) :
    (semFinish s id ok).submitted = s.submitted := by
  simp only [semFinish]
  split
  · rw [semExecute_submitted]
  · rfl

theorem semSubmit_max (s : SemState) (id : Nat) :
    (semSubmit s id).max = s.max := by
  simp only [semSubmit]
  rw [semExecute_max]

theorem semStep_max {s s' : SemState} {e : SemEvent}
    (hst : semStep s e = some s') : s'.max = s.max := by
  cases e with
  | submit id =>
    simp only [semStep] at hst
    by_cases hmem : id ∈ s.submitted
    · rw [if_pos hmem] at hst
      exact absurd hst (by simp)
    · rw [if_neg hmem] at hst
      injection hst with hst
      subst hst
      exact semSubmit_max s id
  | finish id ok =>
    simp only [semStep] at hst
    by_cases hmem : id ∈ s.running
    · rw [if_pos hmem] at hst
      injection hst with hst
      subst hst
      exact semFinish_max s id ok
    · rw [if_neg hmem] at hst
      exact absurd hst (by simp)

theorem semRun_inv (evs : List SemEvent) : ∀ s s' : SemState, SemInv s →
    semRun s evs = some s' → SemInv s' ∧ s'.max = s.max := by
  induction evs with
  | nil =>
    intro s s' h hrun
    simp only [semRun] at hrun
    injection hrun with hrun
    subst hrun
    exact ⟨h, rfl⟩
  | cons e es ih =>
    intro s s' h hrun
    simp only [semRun] at hrun
    cases hst : semStep s e with
    | none =>
      rw [hst] at hrun
      exact absurd hrun (by simp)
    | some s1 =>
      rw [hst] at hrun
      obtain ⟨h2, hm2⟩ := ih s1 s' (semStep_inv h hst) hrun
      exact ⟨h2, hm2.trans (semStep_max hst)⟩

theorem semFinish_pending (s : SemState) (id : Nat) (ok : Bool) (h : SemInv s)
    (hid : id ∈ s.running) :
    (semFinish s id ok).queue.length + (semFinish s id ok).running.length + 1
      = s.queue.length + s.running.length := by
  obtain ⟨hmax, hble, hfull, _, _⟩ := h
  have hlen := List.length_erase_of_mem hid
  have hrpos := List.length_pos_of_mem hid
  simp only [semFinish]
  by_cases hq : s.queue = []
  · rw [if_neg (not_not_intro hq)]
    show s.queue.length + (s.running.erase id).length + 1
      = s.queue.length + s.running.length
    omega
  · rw [if_pos hq]
    have hfl := hfull hq
    simp only [semExecute]
    rw [if_neg (show ¬ ((s.running.erase id).length = s.max) by omega)]
    cases hqc : s.queue with
    | nil => exact absurd hqc hq
    | cons q qs =>
      show qs.length + (s.running.erase id ++ [q]).length + 1
        = (q :: qs).length + s.running.length
      simp only [List.length_append, List.length_cons, List.length_nil]
      omega

/-- Drain lemma: from any state satisfying the invariant, some sequence of
settlement events (resolutions or rejections) settles every submitted job. -/
theorem semDrain (n : Nat) : ∀ s : SemState, SemInv s →
    s.queue.length + s.running.length = n →
    ∃ fins : List SemEvent, (∀ e ∈ fins, ∃ id ok, e = SemEvent.finish id ok)
      ∧ ∃ s', semRun s fins = some s' ∧ s'.submitted = s.submitted
        ∧ s'.settled.Perm s'.submitted := by
  induction n with
  | zero =>
    intro s h hp
    obtain ⟨hmax, hble, hfull, hfifo, hperm⟩ := h
    have hq : s.queue = [] := List.eq_nil_of_length_eq_zero (by omega)
    have hr : s.running = [] := List.eq_nil_of_length_eq_zero (by omega)
    refine ⟨[], by simp, s, rfl, rfl, ?_⟩
    rw [hq] at hfifo
    simp only [List.append_nil] at hfifo
    rw [hr] at hperm
    simp only [List.nil_append] at hperm
    rw [← hfifo]
    exact hperm.symm
  | succ n ih =>
    intro s h hp
    have hrne : s.running ≠ [] := by
      intro hr
      rcases hqe : s.queue with _ | ⟨q, qs⟩
      · rw [hqe, hr] at hp
        simp at hp
      · have hfl := h.2.2.1 (by rw [hqe]; simp)
        rw [hr] at hfl
        simp at hfl
        have := h.1
        omega
    obtain ⟨r0, rr, hr0⟩ := List.exists_cons_of_ne_nil hrne
    have hmem : r0 ∈ s.running := by
      rw [hr0]
      exact List.mem_cons_self _ _
    have hinv1 := semInv_finish s r0 true h hmem
    have hpend := semFinish_pending s r0 true h hmem
    have hsub := semFinish_submitted s r0 true
    obtain ⟨fins, hfins, s', hrun, hsub', hperm'⟩ :=
      ih (semFinish s r0 true) hinv1 (by omega)
    refine ⟨SemEvent.finish r0 true :: fins, ?_, s', ?_, ?_, hperm'⟩
    · intro e he
      rcases List.mem_cons.mp he with he | he
      · exact ⟨r0, true, he⟩
      · exact hfins e he
    · simp only [semRun, semStep, if_pos hmem]
      exact hrun
    · rw [hsub', hsub]

/-- C2: for `Semaphore(max = k)` with `k > 0` and any valid sequence of
job submissions and settlements: at most `k` jobs run concurrently at every
point; jobs are started in FIFO submission order
(`started ++ queue = submitted`); jobs wait only while the pool is full; the
pending/settled bookkeeping is conserved; and every submitted job eventually
settles — from any reachable state some sequence of settlement events
(resolutions or rejections alike) ends with `settled` a permutation of
`submitted`. -/
theorem semaphore_props (k : Nat) (hk : 0 < k) (evs : List SemEvent)
    (s : SemState) (h : semRun (semInit k) evs = some s) :
    s.running.length ≤ k
    ∧ s.started ++ s.queue = s.submitted
    ∧ (s.queue ≠ [] → s.running.length = k)
    ∧ s.settled.length + s.queue.length + s.running.length = s.submitted.length
    ∧ ∃ fins : List SemEvent, (∀ e ∈ fins, ∃ id ok, e = SemEvent.finish id ok)
        ∧ ∃ s', semRun s fins = some s' ∧ s'.submitted = s.submitted
          ∧ s'.settled.Perm s'.submitted := by
  obtain ⟨hinv, hmax⟩ := semRun_inv evs (semInit k) s (semInv_init k hk) h
  have hmaxk : s.max = k := hmax
  obtain ⟨hpos, hble, hfull, hfifo, hperm⟩ := hinv
  have h1 : s.started.length + s.queue.length = s.submitted.length := by
    have := congrArg List.length hfifo
    rwa [List.length_append] at this
  have h2 : s.started.length = s.running.length + s.settled.length := by
    have := hperm.length_eq
    rwa [List.length_append] at this
  exact ⟨hmaxk ▸ hble, hfifo, fun hq => hmaxk ▸ hfull hq, by omega,
    semDrain (s.queue.length + s.running.length) s
      ⟨hpos, hble, hfull, hfifo, hperm⟩ rfl⟩

/-- Witness for C2: `Semaphore(1)` given two jobs, the first of which
rejects. -/
theorem semaphore_props_witness :
    demoSemFinal.running.length ≤ 1
    ∧ demoSemFinal.started ++ demoSemFinal.queue = demoSemFinal.submitted
    ∧ (demoSemFinal.queue ≠ [] → demoSemFinal.running.length = 1)
    ∧ demoSemFinal.settled.length + demoSemFinal.queue.length
        + demoSemFinal.running.length = demoSemFinal.submitted.length
    ∧ ∃ fins : List SemEvent, (∀ e ∈ fins, ∃ id ok, e = SemEvent.finish id ok)
        ∧ ∃ s', semRun demoSemFinal fins = some s'
          ∧ s'.submitted = demoSemFinal.submitted
          ∧ s'.settled.Perm s'.submitted :=
  semaphore_props 1 (by decide)
    [.submit 0, .submit 1, .finish 0 false, .finish 1 true]
    demoSemFinal (by decide)

end HsTools
